import Mathlib

/-!
Verification of the ecg-player caption engine ("Caption With Intention").

Shallow embedding of:
* `assColorToCss` (src/utils/index.ts and the inlined copy in the component),
* the GSAP wave-animation manager (`createBouncingAnimation` data,
  `updateWaveAnimations`, `clearAll`) from components/CaptionWithIntention.tsx,
* the per-frame event resolver (`getCurrentEvents`, primary-event selection,
  overlap slot assignment) from components/CaptionWithIntention.tsx,
* the greedy word-segmentation and the sticky segment-index update from the
  same component.

Times handled by the resolver/layout logic are embedded as rationals (the
code compares JS numbers; the comparisons themselves are exact), while the
wave-offset computation, which uses `Math.sin`/`Math.cos`/`Math.pow`, is
embedded over the reals.
-/

namespace EcgPlayer

/-! ## Color conversion: `assColorToCss`

JS source (src/utils/index.ts):
```
const hex = assColor.replace('&H', '').replace('&', '');
if (hex === '00FFFFFF') return '#FFFFFF';
const bgr = hex.slice(-6);
const b = bgr.slice(0, 2);
const g = bgr.slice(2, 4);
const r = bgr.slice(4, 6);
return `#${r}${g}${b}`;
```
Strings are embedded as `List Char`.  `String.replace(pat, '')` in JS removes
the first occurrence of `pat`; `slice(-6)` takes the last (at most) 6
characters; `slice(a, b)` is drop/take.
-/

/-- If `pat` occurs at the head of the list, return the remainder after it. -/
def matchDrop : List Char → List Char → Option (List Char)
  | [], rest => some rest
  | _ :: _, [] => none
  | p :: ps, c :: cs => if c = p then matchDrop ps cs else none

/-- JS `s.replace(pat, '')`: remove the first occurrence of `pat`, if any. -/
def replaceFirst (pat : List Char) : List Char → List Char
  | [] => []
  | c :: cs =>
    match matchDrop pat (c :: cs) with
    | some rest => rest
    | none => c :: replaceFirst pat cs

/-- `assColorToCss`, embedded over `List Char`. -/
def assColorToCss (assColor : List Char) : List Char :=
  let hex := replaceFirst ['&'] (replaceFirst ['&', 'H'] assColor)
  if hex = "00FFFFFF".toList then "#FFFFFF".toList
  else
    let bgr := hex.drop (hex.length - 6)
    let b := bgr.take 2
    let g := (bgr.drop 2).take 2
    let r := (bgr.drop 4).take 2
    '#' :: (r ++ g ++ b)

/-- A hexadecimal digit, as the spec's "well-formed 8-hex-digit input" uses. -/
def isHexDigitChar (c : Char) : Prop := c ∈ "0123456789abcdefABCDEF".toList

instance (c : Char) : Decidable (isHexDigitChar c) := by
  unfold isHexDigitChar; infer_instance

/-- Reversing the byte order of a 6-hex-digit BGR string (spec wording:
"reversing the trailing 6 hex digits' byte order"). -/
def byteRev6 (l : List Char) : List Char :=
  ((l.drop 4).take 2) ++ ((l.drop 2).take 2) ++ l.take 2

lemma hexDigit_ne_amp {c : Char} (h : isHexDigitChar c) : c ≠ '&' := by
  rintro rfl; revert h; decide

lemma replaceFirst_single_of_not_mem {c : Char} :
    ∀ {l : List Char}, c ∉ l → replaceFirst [c] l = l := by
  intro l
  induction l with
  | nil => intro _; rfl
  | cons a as ih =>
    intro h
    have hca : a ≠ c := fun hc => h (hc ▸ List.mem_cons_self a as)
    have has : c ∉ as := fun hm => h (List.mem_cons_of_mem a hm)
    simp [replaceFirst, matchDrop, hca, ih has]

lemma replaceFirst_amp_H (rest : List Char) :
    replaceFirst ['&', 'H'] ('&' :: 'H' :: rest) = rest := by
  simp [replaceFirst, matchDrop]

/-- **C4.** `assColorToCss` maps `&H00FFFFFF` to `#FFFFFF`; every well-formed
`&HAABBGGRR` input is mapped to `#RRGGBB`, i.e. `#` followed by the trailing
6 hex digits with their byte order reversed (BGR to RGB); and that 6-digit
byte reversal is an involution. -/
theorem assColorToCss_spec :
    (assColorToCss "&H00FFFFFF".toList = "#FFFFFF".toList) ∧
    (∀ d1 d2 d3 d4 d5 d6 d7 d8 : Char,
      isHexDigitChar d1 → isHexDigitChar d2 → isHexDigitChar d3 →
      isHexDigitChar d4 → isHexDigitChar d5 → isHexDigitChar d6 →
      isHexDigitChar d7 → isHexDigitChar d8 →
      assColorToCss ('&' :: 'H' :: [d1, d2, d3, d4, d5, d6, d7, d8]) =
        '#' :: byteRev6 [d3, d4, d5, d6, d7, d8]) ∧
    (∀ a b c d e f : Char, byteRev6 (byteRev6 [a, b, c, d, e, f]) = [a, b, c, d, e, f]) := by
  refine ⟨by decide, ?_, ?_⟩
  · intro d1 d2 d3 d4 d5 d6 d7 d8 h1 h2 h3 h4 h5 h6 h7 h8
    have hnm : '&' ∉ [d1, d2, d3, d4, d5, d6, d7, d8] := by
      simp only [List.mem_cons, List.not_mem_nil, or_false, not_or]
      exact ⟨Ne.symm (hexDigit_ne_amp h1), Ne.symm (hexDigit_ne_amp h2),
        Ne.symm (hexDigit_ne_amp h3), Ne.symm (hexDigit_ne_amp h4),
        Ne.symm (hexDigit_ne_amp h5), Ne.symm (hexDigit_ne_amp h6),
        Ne.symm (hexDigit_ne_amp h7), Ne.symm (hexDigit_ne_amp h8)⟩
    simp only [assColorToCss]
    rw [replaceFirst_amp_H, replaceFirst_single_of_not_mem hnm]
    by_cases hc : ([d1, d2, d3, d4, d5, d6, d7, d8] : List Char) = "00FFFFFF".toList
    · rw [if_pos hc]
      have hc' := hc
      rw [show ("00FFFFFF".toList : List Char) = ['0', '0', 'F', 'F', 'F', 'F', 'F', 'F']
        from rfl] at hc'
      simp only [List.cons.injEq, and_true] at hc'
      obtain ⟨rfl, rfl, rfl, rfl, rfl, rfl, rfl, rfl⟩ := hc'
      rfl
    · rw [if_neg hc]
      simp [byteRev6]
  · intro a b c d e f
    rfl

/-- Witness for C4 at the concrete well-formed input `&H00FF00AA`
(alpha `00`, blue `FF`, green `00`, red `AA`). -/
theorem assColorToCss_spec_witness :
    isHexDigitChar 'A' ∧
    assColorToCss ('&' :: 'H' :: ['0', '0', 'F', 'F', '0', '0', 'A', 'A']) =
      '#' :: byteRev6 ['F', 'F', '0', '0', 'A', 'A'] :=
  ⟨by decide,
    assColorToCss_spec.2.1 '0' '0' 'F' 'F' '0' '0' 'A' 'A'
      (by decide) (by decide) (by decide) (by decide)
      (by decide) (by decide) (by decide) (by decide)⟩

/-! ## GSAP animation manager (wave/bounce motion)

Embedded from the `GSAPAnimationManager` class inlined in
components/CaptionWithIntention.tsx: `createBouncingAnimation` stores a
per-character record in the `waveAnimations` map, `updateWaveAnimations`
recomputes each registered character's y offset from the video time, and
`clearAll` kills the GSAP timelines in `activeAnimations` and clears that
map (and only that map).
-/

/-- Per-character timing refinement (`CharacterTiming` in the source). -/
structure CharacterTiming where
  character : String
  char_index : ℕ
  start_time : ℝ
  end_time : ℝ
  peak_time : Option ℝ
  relative_delay : ℝ

/-- `Word['bouncing_animation']` fields used by the animation manager. -/
structure BouncingAnimation where
  enabled : Bool
  scale_increase_percent : Option ℝ
  min_height_percent : ℝ
  max_height_percent : ℝ
  character_delay_ms : ℝ
  wave_pattern : String
  wave_cycles : Option ℝ
  character_timings : Option (List CharacterTiming)

/-- One value of the manager's `waveAnimations` map.  The DOM element is
identified by its id string. -/
structure WaveData where
  elementId : String
  charPhase : ℝ
  bounceRange : ℝ
  startTime : ℝ
  duration : ℝ
  waveCycles : ℝ
  pronunciationStart : ℝ
  charTiming : Option CharacterTiming

/-- The record `createBouncingAnimation` registers in `waveAnimations`
(for an enabled bouncing animation):
`bounceRange = maxBounce - minBounce`, `charPhase = charIndex * (2π / wordLength)`,
`waveCycles = bouncingAnimation.wave_cycles || 1.5` (JS `||`: `0` is falsy). -/
noncomputable def mkWaveData (elementId : String) (charIndex wordLength : ℕ)
    (bouncingAnimation : BouncingAnimation) (screenHeight : ℝ)
    (startTime wordDuration pronunciationStart : ℝ)
    (charTiming : Option CharacterTiming) : WaveData :=
  let minBounce := screenHeight * (bouncingAnimation.min_height_percent / 100)
  let maxBounce := screenHeight * (bouncingAnimation.max_height_percent / 100)
  let bounceRange := maxBounce - minBounce
  let phaseOffset := Real.pi * 2 / (wordLength : ℝ)
  let charPhase := (charIndex : ℝ) * phaseOffset
  let waveCycles := match bouncingAnimation.wave_cycles with
    | some c => if c = 0 then 1.5 else c
    | none => 1.5
  { elementId := elementId, charPhase := charPhase, bounceRange := bounceRange,
    startTime := startTime, duration := wordDuration, waveCycles := waveCycles,
    pronunciationStart := pronunciationStart, charTiming := charTiming }

/-- `charTiming?.start_time ?? startTime` in `updateWaveAnimations`. -/
def WaveData.animStartTime (d : WaveData) : ℝ :=
  match d.charTiming with
  | some ct => ct.start_time
  | none => d.startTime

/-- `charTiming ? (end_time - start_time) : duration` in `updateWaveAnimations`. -/
def WaveData.animDuration (d : WaveData) : ℝ :=
  match d.charTiming with
  | some ct => ct.end_time - ct.start_time
  | none => d.duration

/-- `charTiming?.peak_time ?? pronunciationStart` in `updateWaveAnimations`. -/
def WaveData.peakTime (d : WaveData) : ℝ :=
  match d.charTiming with
  | some ct => match ct.peak_time with
    | some p => p
    | none => d.pronunciationStart
  | none => d.pronunciationStart

/-- The y offset `updateWaveAnimations` computes for a registered character
while `0 <= elapsed <= animDuration`. -/
noncomputable def waveY (d : WaveData) (videoTime : ℝ) : ℝ :=
  let elapsed := videoTime - d.animStartTime
  let progress := elapsed / d.animDuration
  let peakOffset := (d.peakTime - d.animStartTime) / d.animDuration
  let peakPhaseShift := -peakOffset * d.waveCycles * Real.pi * 2 + Real.pi / 2
  let wavePosition := progress * d.waveCycles * Real.pi * 2
  let sineValue := |Real.sin (wavePosition + d.charPhase + peakPhaseShift)|
  let damping := Real.cos (progress * Real.pi / 2) ^ (1.5 : ℝ)
  let currentY := -d.bounceRange * sineValue * damping
  currentY

/-- The manager's mutable state: the two maps of the class. -/
structure ManagerState where
  activeAnimations : List String
  waveAnimations : List (String × WaveData)

/-- `clearAll()`: kills every timeline in `activeAnimations` and clears that
map.  `waveAnimations` is not touched by the source. -/
def ManagerState.clearAll (s : ManagerState) : ManagerState :=
  { s with activeAnimations := [] }

/-- The `gsap.set(element, { y: ... })` calls one `updateWaveAnimations(t)`
pass issues, as (element id, y) pairs. -/
noncomputable def updateWaveAnimationsOps (s : ManagerState) (videoTime : ℝ) :
    List (String × ℝ) :=
  s.waveAnimations.filterMap fun p =>
    let elapsed := videoTime - p.2.animStartTime
    if 0 ≤ elapsed ∧ elapsed ≤ p.2.animDuration then some (p.1, waveY p.2 videoTime)
    else if p.2.animDuration < elapsed then some (p.1, (0 : ℝ))
    else none

/-- The state after one `updateWaveAnimations(t)` pass (finished entries are
deleted from the map). -/
noncomputable def updateWaveAnimationsState (s : ManagerState) (videoTime : ℝ) :
    ManagerState :=
  { s with waveAnimations := s.waveAnimations.filter fun p =>
      !(decide (p.2.animDuration < videoTime - p.2.animStartTime)) }

/-- The wave-offset formula as the specification states it, for comparison
with the code's `waveY`:
`p = clamp((t - charStart)/(charEnd - charStart), 0, 1)`,
`peakOffset = (peakTime - charStart)/(charEnd - charStart)`,
`phaseShift = -peakOffset * waveCycles * 2π + π/2`,
`y = -bounceRange * |sin(p * waveCycles * 2π + charPhase + phaseShift)| * cos(p * π/2)^1.5`. -/
noncomputable def specWaveY (bounceRange waveCycles charPhase charStart charEnd peakTime t : ℝ) : ℝ :=
  let p := max 0 (min 1 ((t - charStart) / (charEnd - charStart)))
  let peakOffset := (peakTime - charStart) / (charEnd - charStart)
  let phaseShift := -peakOffset * waveCycles * (2 * Real.pi) + Real.pi / 2
  let damping := Real.cos (p * (Real.pi / 2)) ^ (1.5 : ℝ)
  let y := -bounceRange * |Real.sin (p * waveCycles * (2 * Real.pi) + charPhase + phaseShift)| * damping
  y

/-- **C2.** During the active window (`charStart ≤ t ≤ charEnd` with
`charStart`/`charEnd`/`peakTime` the resolved per-character timings), the y
offset computed by `updateWaveAnimations` equals the spec's formula; and a
record created by `createBouncingAnimation` carries
`charPhase = charIndex * (2π / wordLength)` and
`bounceRange = screenHeight * (maxHeightPercent - minHeightPercent)/100`. -/
theorem waveY_eq_specWaveY :
    (∀ (d : WaveData) (t : ℝ), d.animStartTime ≤ t →
      t ≤ d.animStartTime + d.animDuration → 0 < d.animDuration →
      waveY d t = specWaveY d.bounceRange d.waveCycles d.charPhase
        d.animStartTime (d.animStartTime + d.animDuration) d.peakTime t) ∧
    (∀ el ci wl ba sh st wd ps ct,
      (mkWaveData el ci wl ba sh st wd ps ct).charPhase =
        (ci : ℝ) * (2 * Real.pi / (wl : ℝ)) ∧
      (mkWaveData el ci wl ba sh st wd ps ct).bounceRange =
        sh * (ba.max_height_percent - ba.min_height_percent) / 100) := by
  constructor
  · intro d t h0 h1 hd
    have hdur : d.animStartTime + d.animDuration - d.animStartTime = d.animDuration := by ring
    have hp0 : (0 : ℝ) ≤ (t - d.animStartTime) / d.animDuration :=
      div_nonneg (by linarith) (le_of_lt hd)
    have hp1 : (t - d.animStartTime) / d.animDuration ≤ 1 :=
      (div_le_one hd).mpr (by linarith)
    simp only [waveY, specWaveY, hdur]
    rw [min_eq_right hp1, max_eq_right hp0]
    congr 1
    · congr 1
      congr 1
      ring_nf
    · congr 1
      ring_nf
  · intro el ci wl ba sh st wd ps ct
    constructor
    · simp only [mkWaveData]
      ring
    · simp only [mkWaveData]
      ring

/-- Witness for C2: a concrete character (index 1 of a 4-letter word, window
`[2, 3]`, peak at `2.25`) evaluated at `t = 2.5`, inside the window. -/
noncomputable def c2Wave : WaveData :=
  mkWaveData "char-0-1" 1 4
    { enabled := true, scale_increase_percent := none, min_height_percent := 1/2,
      max_height_percent := 5/2, character_delay_ms := 0, wave_pattern := "sine",
      wave_cycles := some 2, character_timings := none }
    450 2 1 (9/4)
    (some { character := "e", char_index := 1, start_time := 2, end_time := 3,
            peak_time := some (9/4), relative_delay := 0 })

theorem waveY_eq_specWaveY_witness :
    c2Wave.animStartTime ≤ (5/2 : ℝ) ∧ (5/2 : ℝ) ≤ c2Wave.animStartTime + c2Wave.animDuration ∧
    0 < c2Wave.animDuration ∧
    waveY c2Wave (5/2) = specWaveY c2Wave.bounceRange c2Wave.waveCycles c2Wave.charPhase
      c2Wave.animStartTime (c2Wave.animStartTime + c2Wave.animDuration) c2Wave.peakTime (5/2) := by
  have hs : c2Wave.animStartTime = 2 := rfl
  have hd : c2Wave.animDuration = 1 := by
    show (3 : ℝ) - 2 = 1
    norm_num
  refine ⟨by rw [hs]; norm_num, by rw [hs, hd]; norm_num, by rw [hd]; norm_num, ?_⟩
  exact waveY_eq_specWaveY.1 c2Wave (5/2) (by rw [hs]; norm_num)
    (by rw [hs, hd]; norm_num) (by rw [hd]; norm_num)

/-- A concrete registered wave handle: sole character of a 1-letter word,
window `[0, 1]`, `min/max_height_percent = 0/100` on a screen of height 1
(so `bounceRange = 1`), `wave_cycles = 1.5`, peak at the window start. -/
noncomputable def c1Wave : WaveData :=
  mkWaveData "char-0-0" 0 1
    { enabled := true, scale_increase_percent := none, min_height_percent := 0,
      max_height_percent := 100, character_delay_ms := 0, wave_pattern := "sine",
      wave_cycles := some (3/2), character_timings := none }
    1 0 1 0 none

/-- A manager state holding the handle above in both maps. -/
noncomputable def c1State : ManagerState :=
  { activeAnimations := ["char-0-0-bounce"],
    waveAnimations := [("char-0-0-bounce", c1Wave)] }

lemma c1Wave_charPhase : c1Wave.charPhase = 0 := by
  simp [c1Wave, mkWaveData]

lemma c1Wave_bounceRange : c1Wave.bounceRange = 1 := by
  norm_num [c1Wave, mkWaveData]

lemma c1Wave_waveY_zero : waveY c1Wave 0 = -1 := by
  have h1 : c1Wave.animStartTime = 0 := rfl
  have h2 : c1Wave.animDuration = 1 := rfl
  have h3 : c1Wave.peakTime = 0 := rfl
  simp only [waveY, h1, h2, h3, c1Wave_charPhase, c1Wave_bounceRange]
  norm_num [Real.sin_pi_div_two, Real.cos_zero, Real.one_rpow]

/-- **C1 (code bug).** `clearAll()` empties only `activeAnimations`; the
`waveAnimations` map survives, so a subsequent `updateWaveAnimations(0)` on
the cleared manager still issues a `gsap.set` moving the character to
`y = -1 ≠ 0` — not a no-op, contradicting the spec's lifecycle contract. -/
theorem clearAll_wave_update_not_noop :
    (c1State.clearAll).activeAnimations = [] ∧
    updateWaveAnimationsOps c1State.clearAll 0 = [("char-0-0-bounce", (-1 : ℝ))] ∧
    ((-1 : ℝ) ≠ 0) := by
  refine ⟨rfl, ?_, by norm_num⟩
  have h1 : c1Wave.animStartTime = 0 := rfl
  have h2 : c1Wave.animDuration = 1 := rfl
  simp only [updateWaveAnimationsOps, ManagerState.clearAll, c1State,
    List.filterMap_cons, List.filterMap_nil, h1, h2]
  norm_num [c1Wave_waveY_zero]

/-- A second concrete wave handle with the same shape, for the baseline
claim: at the very start of its window the computed offset is `-1`, not 0. -/
noncomputable def c3Wave : WaveData :=
  mkWaveData "char-1-0" 0 1
    { enabled := true, scale_increase_percent := none, min_height_percent := 0,
      max_height_percent := 100, character_delay_ms := 0, wave_pattern := "sine",
      wave_cycles := some (3/2), character_timings := none }
    1 0 1 0 none

/-- **C3 (counterexample).** At elapsed fraction `p = 0` (here `t = 0`, the
start of the `[0, 1]` window) the computed vertical offset is `-1`, not `0`:
the damping is 1 at `p = 0` and the peak-aligning phase shift `π/2` puts the
wave at full amplitude there. -/
theorem waveY_nonzero_at_start :
    waveY c3Wave 0 = -1 ∧ waveY c3Wave 0 ≠ 0 := by
  have h1 : c3Wave.animStartTime = 0 := rfl
  have h2 : c3Wave.animDuration = 1 := rfl
  have h3 : c3Wave.peakTime = 0 := rfl
  have h4 : c3Wave.charPhase = 0 := by simp [c3Wave, mkWaveData]
  have h5 : c3Wave.bounceRange = 1 := by norm_num [c3Wave, mkWaveData]
  have hv : waveY c3Wave 0 = -1 := by
    simp only [waveY, h1, h2, h3, h4, h5]
    norm_num [Real.sin_pi_div_two, Real.cos_zero, Real.one_rpow]
  exact ⟨hv, by rw [hv]; norm_num⟩

/-- **C3 (amended).** For every registered character and any `waveCycles`,
`bounceRange`: the computed offset is `0` at `p = 1` (end of the window),
while at `p = 0` it equals `-bounceRange * |sin(charPhase + phaseShift)|`,
which is zero only when that sine vanishes. -/
theorem waveY_baseline_at_ends :
    (∀ (d : WaveData) (t : ℝ), 0 < d.animDuration →
      t = d.animStartTime + d.animDuration → waveY d t = 0) ∧
    (∀ d : WaveData,
      waveY d d.animStartTime =
        -d.bounceRange * |Real.sin (d.charPhase +
          (-((d.peakTime - d.animStartTime) / d.animDuration) * d.waveCycles * Real.pi * 2
            + Real.pi / 2))|) := by
  constructor
  · intro d t hd ht
    subst ht
    simp only [waveY]
    have hpr : (d.animStartTime + d.animDuration - d.animStartTime) / d.animDuration = 1 := by
      rw [show d.animStartTime + d.animDuration - d.animStartTime = d.animDuration from by ring]
      exact div_self (ne_of_gt hd)
    rw [hpr, show (1 : ℝ) * Real.pi / 2 = Real.pi / 2 from by ring,
      Real.cos_pi_div_two, Real.zero_rpow (by norm_num : (1.5 : ℝ) ≠ 0), mul_zero]
  · intro d
    simp only [waveY, sub_self, zero_div, zero_mul, zero_add, Real.cos_zero,
      Real.one_rpow, mul_one]

/-- Witness for the amended C3 at the end of `c3Wave`'s window (`t = 1`). -/
theorem waveY_baseline_at_ends_witness :
    0 < c3Wave.animDuration ∧ waveY c3Wave 1 = 0 := by
  have h2 : c3Wave.animDuration = 1 := rfl
  refine ⟨by rw [h2]; norm_num, ?_⟩
  exact waveY_baseline_at_ends.1 c3Wave 1 (by rw [h2]; norm_num)
    (by rw [show c3Wave.animStartTime = 0 from rfl, h2]; norm_num)

/-! ## Timing model and per-frame event resolver

From `getCurrentEvents` and the caption-box render block of
components/CaptionWithIntention.tsx.  Timestamps are embedded as rationals;
presentation-only fields of `Word` (color transition, font adjustments,
animation configs) are omitted: the resolver and layout logic compare only
`word`, `word_index`, `start`, `end` (the source field `end` is called
`endTime` here since `end` is reserved in Lean). -/

structure Word where
  word : String
  word_index : ℕ
  start : ℚ
  endTime : ℚ
  deriving DecidableEq

structure PreReading where
  text : String
  start : ℚ
  endTime : ℚ
  style : String
  alpha : String
  deriving DecidableEq

structure SyncEvent where
  event_id : String
  speaker_id : String
  segment_id : String
  sentence : String
  pre_reading : PreReading
  active_speech_words : List Word
  deriving DecidableEq

structure TimingSyncData where
  version : String
  total_duration : ℚ
  sync_precision_ms : ℚ
  sync_events : List SyncEvent
  deriving DecidableEq

/-- `adjustedTime >= word.start && adjustedTime <= word.end`. -/
def wordActiveAt (T : ℚ) (w : Word) : Bool :=
  decide (w.start ≤ T) && decide (T ≤ w.endTime)

/-- `adjustedTime >= event.pre_reading.start && adjustedTime <= event.pre_reading.end`. -/
def preReadingContains (T : ℚ) (e : SyncEvent) : Bool :=
  decide (e.pre_reading.start ≤ T) && decide (T ≤ e.pre_reading.endTime)

/-- The `preReading` list computed by `getCurrentEvents`. -/
def preReadingCandidates (events : List SyncEvent) (T : ℚ) : List SyncEvent :=
  events.filter (preReadingContains T)

/-- The `activeWords` list computed by `getCurrentEvents` (each active word
paired with its event, in document order). -/
def activeWordsAt (events : List SyncEvent) (T : ℚ) : List (Word × SyncEvent) :=
  events.flatMap fun e => (e.active_speech_words.filter (wordActiveAt T)).map fun w => (w, e)

/-- `getCurrentEvents(time)` with the sync offset applied:
`adjustedTime = time - syncOffset`. -/
def getCurrentEvents (doc : TimingSyncData) (time syncOffset : ℚ) :
    List SyncEvent × List (Word × SyncEvent) :=
  let adjustedTime := time - syncOffset
  (preReadingCandidates doc.sync_events adjustedTime,
   activeWordsAt doc.sync_events adjustedTime)

/-- The `for (const event of currentEvents.preReading)` selection loop:
the accumulator models the `currentEvent`/`lowestWordIndex` pair
(`none` = `null`/`Infinity`). -/
def selectLoop (T : ℚ) : List SyncEvent → Option (SyncEvent × ℕ) → Option (SyncEvent × ℕ)
  | [], acc => acc
  | e :: es, acc =>
    match e.active_speech_words.find? (wordActiveAt T) with
    | some w =>
      match acc with
      | none => selectLoop T es (some (e, w.word_index))
      | some (c, i) =>
        if w.word_index < i then selectLoop T es (some (e, w.word_index))
        else selectLoop T es (some (c, i))
    | none => selectLoop T es acc

/-- Primary-event selection: the active-word loop over the pre-reading
candidates, then the pre-reading `find` fallback. -/
def selectPrimary (doc : TimingSyncData) (T : ℚ) : Option SyncEvent :=
  let cands := preReadingCandidates doc.sync_events T
  match selectLoop T cands none with
  | some (e, _) => some e
  | none => cands.find? (preReadingContains T)

lemma selectLoop_none_iff (T : ℚ) :
    ∀ (l : List SyncEvent) (acc : Option (SyncEvent × ℕ)),
      selectLoop T l acc = none ↔
        (acc = none ∧ ∀ e ∈ l, e.active_speech_words.find? (wordActiveAt T) = none) := by
  intro l
  induction l with
  | nil => intro acc; simp [selectLoop]
  | cons e es ih =>
    intro acc
    cases hfind : e.active_speech_words.find? (wordActiveAt T) with
    | none =>
      simp only [selectLoop, hfind, ih]
      constructor
      · rintro ⟨ha, hes⟩
        exact ⟨ha, by
          intro e' he'
          rcases List.mem_cons.mp he' with rfl | hmem
          · exact hfind
          · exact hes e' hmem⟩
      · rintro ⟨ha, hall⟩
        exact ⟨ha, fun e' he' => hall e' (List.mem_cons_of_mem _ he')⟩
    | some w =>
      cases acc with
      | none =>
        simp only [selectLoop, hfind, ih]
        constructor
        · rintro ⟨h, -⟩
          exact absurd h (by simp)
        · rintro ⟨-, hall⟩
          exact absurd (hall e (List.mem_cons_self _ _)) (by simp [hfind])
      | some ci =>
        obtain ⟨c, i⟩ := ci
        simp only [selectLoop, hfind]
        by_cases hlt : w.word_index < i
        · simp only [if_pos hlt, ih]
          constructor
          · rintro ⟨h, -⟩
            exact absurd h (by simp)
          · rintro ⟨h, -⟩
            exact absurd h (by simp)
        · simp only [if_neg hlt, ih]
          constructor
          · rintro ⟨h, -⟩
            exact absurd h (by simp)
          · rintro ⟨h, -⟩
            exact absurd h (by simp)

lemma selectLoop_some_spec (T : ℚ) :
    ∀ (l : List SyncEvent) (acc : Option (SyncEvent × ℕ)) (e : SyncEvent) (i : ℕ),
      selectLoop T l acc = some (e, i) →
      ((acc = some (e, i)) ∨
        (e ∈ l ∧ ∃ w, e.active_speech_words.find? (wordActiveAt T) = some w ∧
          w.word_index = i)) ∧
      (∀ c j, acc = some (c, j) → i ≤ j) ∧
      (∀ e' ∈ l, ∀ w', e'.active_speech_words.find? (wordActiveAt T) = some w' →
        i ≤ w'.word_index) := by
  intro l
  induction l with
  | nil =>
    intro acc e i h
    simp only [selectLoop] at h
    refine ⟨Or.inl h, ?_, ?_⟩
    · intro c j hacc
      rw [h] at hacc
      cases hacc
      exact le_refl i
    · intro e' he'
      exact absurd he' (List.not_mem_nil e')
  | cons e0 es ih =>
    intro acc e i h
    cases hfind : e0.active_speech_words.find? (wordActiveAt T) with
    | none =>
      rw [selectLoop, hfind] at h
      obtain ⟨hd, hacc, hmin⟩ := ih acc e i h
      refine ⟨?_, hacc, ?_⟩
      · rcases hd with h1 | ⟨hmem, hw⟩
        · exact Or.inl h1
        · exact Or.inr ⟨List.mem_cons_of_mem _ hmem, hw⟩
      · intro e' he' w' hw'
        rcases List.mem_cons.mp he' with rfl | hmem
        · rw [hfind] at hw'
          cases hw'
        · exact hmin e' hmem w' hw'
    | some w =>
      cases acc with
      | none =>
        rw [selectLoop, hfind] at h
        obtain ⟨hd, hacc, hmin⟩ := ih (some (e0, w.word_index)) e i h
        have hile : i ≤ w.word_index := hacc e0 w.word_index rfl
        refine ⟨?_, ?_, ?_⟩
        · rcases hd with h1 | ⟨hmem, hw⟩
          · cases h1
            exact Or.inr ⟨List.mem_cons_self _ _, w, hfind, rfl⟩
          · exact Or.inr ⟨List.mem_cons_of_mem _ hmem, hw⟩
        · intro c j hacc'
          cases hacc'
        · intro e' he' w' hw'
          rcases List.mem_cons.mp he' with rfl | hmem
          · rw [hfind] at hw'
            cases hw'
            exact hile
          · exact hmin e' hmem w' hw'
      | some ci =>
        obtain ⟨c, j⟩ := ci
        simp only [selectLoop, hfind] at h
        by_cases hlt : w.word_index < j
        · rw [if_pos hlt] at h
          obtain ⟨hd, hacc, hmin⟩ := ih (some (e0, w.word_index)) e i h
          have hile : i ≤ w.word_index := hacc e0 w.word_index rfl
          refine ⟨?_, ?_, ?_⟩
          · rcases hd with h1 | ⟨hmem, hw⟩
            · cases h1
              exact Or.inr ⟨List.mem_cons_self _ _, w, hfind, rfl⟩
            · exact Or.inr ⟨List.mem_cons_of_mem _ hmem, hw⟩
          · intro c' j' hacc'
            cases hacc'
            exact le_trans hile (le_of_lt hlt)
          · intro e' he' w' hw'
            rcases List.mem_cons.mp he' with rfl | hmem
            · rw [hfind] at hw'
              cases hw'
              exact hile
            · exact hmin e' hmem w' hw'
        · rw [if_neg hlt] at h
          obtain ⟨hd, hacc, hmin⟩ := ih (some (c, j)) e i h
          have hij : i ≤ j := hacc c j rfl
          refine ⟨?_, ?_, ?_⟩
          · rcases hd with h1 | ⟨hmem, hw⟩
            · exact Or.inl h1
            · exact Or.inr ⟨List.mem_cons_of_mem _ hmem, hw⟩
          · intro c' j' hacc'
            cases hacc'
            exact hij
          · intro e' he' w' hw'
            rcases List.mem_cons.mp he' with rfl | hmem
            · rw [hfind] at hw'
              cases hw'
              exact le_trans hij (not_lt.mp hlt)
            · exact hmin e' hmem w' hw'

lemma find?_active_min (T : ℚ) :
    ∀ (ws : List Word) (w : Word),
      List.Pairwise (fun a b => a.word_index < b.word_index) ws →
      ws.find? (wordActiveAt T) = some w →
      ∀ w' ∈ ws, wordActiveAt T w' = true → w.word_index ≤ w'.word_index := by
  intro ws
  induction ws with
  | nil => intro w _ h; cases h
  | cons x xs ih =>
    intro w hpw hfind w' hw' hact
    by_cases hx : wordActiveAt T x = true
    · rw [List.find?_cons_of_pos _ hx] at hfind
      cases hfind
      rcases List.mem_cons.mp hw' with rfl | hmem
      · exact le_refl _
      · exact le_of_lt ((List.pairwise_cons.mp hpw).1 w' hmem)
    · rw [List.find?_cons_of_neg _ hx] at hfind
      rcases List.mem_cons.mp hw' with rfl | hmem
      · exact absurd hact hx
      · exact ih w (List.pairwise_cons.mp hpw).2 hfind w' hmem hact

/-- **C5 (counterexample).** At adjusted time `0.3`, both events A and B have
a word whose window `[0, 0.5]` contains `0.3`; A's active word has
`word_index 0`, B's has `word_index 5`, yet the resolver selects B, because
A's `pre_reading` window `[10, 11]` does not contain `0.3` and only
pre-reading candidates are examined by the selection loop. -/
def c5wA : Word := { word := "lo", word_index := 0, start := 0, endTime := 1/2 }

def c5wB : Word := { word := "hi", word_index := 5, start := 0, endTime := 1/2 }

def c5A : SyncEvent :=
  { event_id := "evA", speaker_id := "s1", segment_id := "g1", sentence := "lo",
    pre_reading := { text := "lo", start := 10, endTime := 11, style := "preview", alpha := "0.6" },
    active_speech_words := [c5wA] }

def c5B : SyncEvent :=
  { event_id := "evB", speaker_id := "s2", segment_id := "g2", sentence := "hi",
    pre_reading := { text := "hi", start := 0, endTime := 1, style := "preview", alpha := "0.6" },
    active_speech_words := [c5wB] }

def c5Doc : TimingSyncData :=
  { version := "1.0", total_duration := 20, sync_precision_ms := 10,
    sync_events := [c5A, c5B] }

theorem primary_selection_not_global_min :
    wordActiveAt (3/10) c5wA = true ∧ wordActiveAt (3/10) c5wB = true ∧
    c5wA.word_index < c5wB.word_index ∧
    selectPrimary c5Doc (3/10) = some c5B ∧ c5B ≠ c5A := by
  refine ⟨by norm_num [wordActiveAt, c5wA], by norm_num [wordActiveAt, c5wB],
    by decide, ?_, by decide⟩
  norm_num [selectPrimary, selectLoop, preReadingCandidates, List.filter, List.find?,
    wordActiveAt, preReadingContains, c5Doc, c5A, c5B, c5wA, c5wB]

/-- **C5 (amended).** Among the events whose `pre_reading` window contains
the adjusted time (only those are candidates — events whose active word lies
outside their own pre-reading window are never considered), whenever at
least one candidate has an active word and each candidate's word list is
ascending in `word_index`, the resolver selects a candidate whose active
word has the lowest `word_index` over all candidates' active words. -/
theorem primary_selection_lowest_word_index :
    ∀ (doc : TimingSyncData) (T : ℚ),
      (∀ e ∈ preReadingCandidates doc.sync_events T,
        List.Pairwise (fun a b => a.word_index < b.word_index) e.active_speech_words) →
      (∃ e0 ∈ preReadingCandidates doc.sync_events T,
        ∃ w0 ∈ e0.active_speech_words, wordActiveAt T w0 = true) →
      ∃ e w, selectPrimary doc T = some e ∧
        e ∈ preReadingCandidates doc.sync_events T ∧
        w ∈ e.active_speech_words ∧ wordActiveAt T w = true ∧
        ∀ e' ∈ preReadingCandidates doc.sync_events T,
          ∀ w' ∈ e'.active_speech_words, wordActiveAt T w' = true →
            w.word_index ≤ w'.word_index := by
  intro doc T hsorted hex
  obtain ⟨e0, he0, w0, hw0, hact0⟩ := hex
  cases hsl : selectLoop T (preReadingCandidates doc.sync_events T) none with
  | none =>
    obtain ⟨-, hall⟩ := (selectLoop_none_iff T _ none).mp hsl
    have := List.find?_eq_none.mp (hall e0 he0) w0 hw0
    exact absurd hact0 (by simpa using this)
  | some ei =>
    obtain ⟨e, i⟩ := ei
    obtain ⟨hd, -, hmin⟩ := selectLoop_some_spec T _ none e i hsl
    rcases hd with h1 | ⟨hmem, w, hfind, hwi⟩
    · cases h1
    · refine ⟨e, w, ?_, hmem, List.mem_of_find?_eq_some hfind, List.find?_some hfind, ?_⟩
      · simp only [selectPrimary, hsl]
      · intro e' he' w' hw' hact'
        have hfind' : ∃ w'', e'.active_speech_words.find? (wordActiveAt T) = some w'' := by
          cases hf : e'.active_speech_words.find? (wordActiveAt T) with
          | none => exact absurd hact' (by simpa using List.find?_eq_none.mp hf w' hw')
          | some w'' => exact ⟨w'', rfl⟩
        obtain ⟨w'', hw''⟩ := hfind'
        have h1 : i ≤ w''.word_index := hmin e' he' w'' hw''
        have h2 : w''.word_index ≤ w'.word_index :=
          find?_active_min T _ w'' (hsorted e' he') hw'' w' hw' hact'
        rw [hwi]
        exact le_trans h1 h2

/-- Witness for the amended C5 at a concrete two-candidate document (both
events of `c5Doc` widened so that both pre-reading windows contain `0.3`). -/
def c5A' : SyncEvent :=
  { c5A with pre_reading := { text := "lo", start := 0, endTime := 11, style := "preview", alpha := "0.6" } }

def c5Doc' : TimingSyncData :=
  { version := "1.0", total_duration := 20, sync_precision_ms := 10,
    sync_events := [c5B, c5A'] }

theorem primary_selection_lowest_word_index_witness :
    ∃ e w, selectPrimary c5Doc' (3/10) = some e ∧
      e ∈ preReadingCandidates c5Doc'.sync_events (3/10) ∧
      w ∈ e.active_speech_words ∧ wordActiveAt (3/10) w = true ∧
      ∀ e' ∈ preReadingCandidates c5Doc'.sync_events (3/10),
        ∀ w' ∈ e'.active_speech_words, wordActiveAt (3/10) w' = true →
          w.word_index ≤ w'.word_index :=
  primary_selection_lowest_word_index c5Doc' (3/10)
    (by norm_num [preReadingCandidates, List.filter, preReadingContains,
      c5Doc', c5B, c5A', c5A, c5wA, c5wB])
    (⟨c5B, by norm_num [preReadingCandidates, List.filter, preReadingContains,
        c5Doc', c5B, c5A', c5A],
      c5wB, by simp [c5B], by norm_num [wordActiveAt, c5wB]⟩)

lemma find?_eq_head?_of_all {α : Type} (p : α → Bool) (l : List α)
    (h : ∀ x ∈ l, p x = true) : l.find? p = l.head? := by
  cases l with
  | nil => rfl
  | cons a as => rw [List.find?_cons_of_pos _ (h a (List.mem_cons_self a as))]; rfl

lemma mem_of_head?_eq_some {α : Type} {l : List α} {a : α} (h : l.head? = some a) :
    a ∈ l := by
  cases l with
  | nil => cases h
  | cons x xs =>
    rw [List.head?_cons] at h
    cases h
    exact List.mem_cons_self _ _

/-- The single-event document of the spec's example: word "Hi" spoken in
`[0, 0.5]`, pre-read over the same window. -/
def c6w : Word := { word := "Hi", word_index := 0, start := 0, endTime := 1/2 }

def c6A : SyncEvent :=
  { event_id := "evHi", speaker_id := "s1", segment_id := "g1", sentence := "Hi",
    pre_reading := { text := "Hi", start := 0, endTime := 1/2, style := "preview", alpha := "0.6" },
    active_speech_words := [c6w] }

def c6Doc : TimingSyncData :=
  { version := "1.0", total_duration := 1, sync_precision_ms := 10,
    sync_events := [c6A] }

/-- **C6.** Every comparison uses `adjustedTime = t - syncOffset`.  If no
word window contains the adjusted time, the resolver falls back to the
pre-reading check: it returns the first event whose `pre_reading` window
contains the adjusted time (if any), and any event so selected satisfies the
window check.  Concretely, on `c6Doc`: at `t = 0.3, offset = 0` event A is
selected and "Hi" is an active word; at `t = 0.3, offset = 0.5`
(`adjustedTime = -0.2`) no word is active and the pre-reading fallback
yields nothing. -/
theorem resolver_fallback_spec :
    (∀ (doc : TimingSyncData) (t o : ℚ),
      (∀ e ∈ doc.sync_events, ∀ w ∈ e.active_speech_words,
        wordActiveAt (t - o) w = false) →
      selectPrimary doc (t - o) = (preReadingCandidates doc.sync_events (t - o)).head? ∧
      (∀ e, (preReadingCandidates doc.sync_events (t - o)).head? = some e →
        preReadingContains (t - o) e = true)) ∧
    ((getCurrentEvents c6Doc (3/10) 0).2 = [(c6w, c6A)] ∧
      selectPrimary c6Doc ((3/10) - 0) = some c6A) ∧
    ((getCurrentEvents c6Doc (3/10) (1/2)).2 = [] ∧
      selectPrimary c6Doc ((3/10) - (1/2)) = none) := by
  refine ⟨?_, ⟨?_, ?_⟩, ⟨?_, ?_⟩⟩
  · intro doc t o hno
    set T := t - o
    have hall : ∀ e ∈ preReadingCandidates doc.sync_events T,
        e.active_speech_words.find? (wordActiveAt T) = none := by
      intro e he
      exact List.find?_eq_none.mpr fun w hw => by
        simp [hno e (List.mem_of_mem_filter he) w hw]
    have hloop : selectLoop T (preReadingCandidates doc.sync_events T) none = none :=
      (selectLoop_none_iff T _ none).mpr ⟨rfl, hall⟩
    have hmem : ∀ x ∈ preReadingCandidates doc.sync_events T,
        preReadingContains T x = true :=
      fun x hx => List.of_mem_filter hx
    constructor
    · simp only [selectPrimary, hloop]
      exact find?_eq_head?_of_all _ _ hmem
    · intro e he
      exact hmem e (mem_of_head?_eq_some he)
  · norm_num [getCurrentEvents, activeWordsAt, List.flatMap, List.filter,
      wordActiveAt, c6Doc, c6A, c6w]
  · norm_num [selectPrimary, selectLoop, preReadingCandidates, List.filter,
      List.find?, wordActiveAt, preReadingContains, c6Doc, c6A, c6w]
  · norm_num [getCurrentEvents, activeWordsAt, List.flatMap, List.filter,
      wordActiveAt, c6Doc, c6A, c6w]
  · norm_num [selectPrimary, selectLoop, preReadingCandidates, List.filter,
      List.find?, wordActiveAt, preReadingContains, c6Doc, c6A, c6w]

/-- Witness for the universally quantified part of C6, at the spec's
`t = 0.3, offset = 0.5` sample on `c6Doc`. -/
theorem resolver_fallback_spec_witness :
    (∀ e ∈ c6Doc.sync_events, ∀ w ∈ e.active_speech_words,
      wordActiveAt ((3/10) - (1/2)) w = false) ∧
    selectPrimary c6Doc ((3/10) - (1/2)) =
      (preReadingCandidates c6Doc.sync_events ((3/10) - (1/2))).head? :=
  ⟨by norm_num [c6Doc, c6A, c6w, wordActiveAt],
    (resolver_fallback_spec.1 c6Doc (3/10) (1/2)
      (by norm_num [c6Doc, c6A, c6w, wordActiveAt])).1⟩

/-- The `overlappingEvents` filter: among pre-reading candidates, drop the
primary event itself and anything from the same speaker, keep events whose
pre-reading window contains the adjusted time.  (In the source the identity
test `event === currentEvent` is subsumed by the `speaker_id` test, since
the primary trivially shares its own `speaker_id`.) -/
def overlappingEventsOf (doc : TimingSyncData) (T : ℚ) (currentEvent : SyncEvent) :
    List SyncEvent :=
  (preReadingCandidates doc.sync_events T).filter fun e =>
    if e = currentEvent ∨ e.speaker_id = currentEvent.speaker_id then false
    else preReadingContains T e

/-- The `lineGroups` slot array: index 0 is the top (secondary) caption box,
index 1 the bottom (primary) box; when nothing resolves, nothing is
rendered. -/
def buildLineGroups (doc : TimingSyncData) (T : ℚ) : List (List SyncEvent) :=
  match selectPrimary doc T with
  | none => []
  | some currentEvent =>
    match (overlappingEventsOf doc T currentEvent).head? with
    | some o => [[o], [currentEvent]]
    | none => [[], [currentEvent]]

/-- **C7.** At most two slots ever exist; when a primary event is resolved
the bottom slot holds exactly the primary and the top slot holds the first
(and only the first — the rest are dropped) overlapping event; every
overlapping event has a different `speaker_id` from the primary and a
pre-reading window containing the adjusted time. -/
theorem slot_assignment_spec :
    ∀ (doc : TimingSyncData) (T : ℚ),
      (buildLineGroups doc T).length ≤ 2 ∧
      (selectPrimary doc T = none → buildLineGroups doc T = []) ∧
      (∀ p, selectPrimary doc T = some p →
        buildLineGroups doc T = [(overlappingEventsOf doc T p).take 1, [p]] ∧
        (∀ e ∈ overlappingEventsOf doc T p,
          e.speaker_id ≠ p.speaker_id ∧ preReadingContains T e = true)) := by
  intro doc T
  refine ⟨?_, ?_, ?_⟩
  · unfold buildLineGroups
    cases selectPrimary doc T with
    | none => simp
    | some p =>
      cases hl : overlappingEventsOf doc T p with
      | nil => simp [hl]
      | cons a as => simp [hl]
  · intro h
    unfold buildLineGroups
    rw [h]
  · intro p hp
    constructor
    · unfold buildLineGroups
      rw [hp]
      cases hl : overlappingEventsOf doc T p with
      | nil => simp [hl]
      | cons a as => simp [hl]
    · intro e he
      have hpred := List.of_mem_filter he
      by_cases hc : e = p ∨ e.speaker_id = p.speaker_id
      · rw [if_pos hc] at hpred
        cases hpred
      · rw [if_neg hc] at hpred
        push_neg at hc
        refine ⟨hc.2, hpred⟩

/-- Witness for C7: two overlapping speakers at adjusted time `0.3`
(`c5Doc'` resolves speaker s1's event `c5A'` as primary, speaker s2's
`c5B` overlapping). -/
theorem slot_assignment_spec_witness :
    selectPrimary c5Doc' (3/10) = some c5A' ∧
    buildLineGroups c5Doc' (3/10) = [(overlappingEventsOf c5Doc' (3/10) c5A').take 1, [c5A']] :=
  ⟨by norm_num [selectPrimary, selectLoop, preReadingCandidates, List.filter, List.find?,
      wordActiveAt, preReadingContains, c5Doc', c5A', c5A, c5B, c5wA, c5wB],
    ((slot_assignment_spec c5Doc' (3/10)).2.2 c5A'
      (by norm_num [selectPrimary, selectLoop, preReadingCandidates, List.filter, List.find?,
        wordActiveAt, preReadingContains, c5Doc', c5A', c5A, c5B, c5wA, c5wB])).1⟩

/-! ## Layout: greedy word segmentation

From the segment-construction block of the component:
`fontSize = 5 * (actualSize.height / 100)`, `charWidth = fontSize * 0.6`,
`wordWidth = (word.length + 1) * charWidth`, packed greedily against
`captionBoxMaxWidth = workAreaWidth - captionBoxPadding`. -/

def segFontSize (height : ℚ) : ℚ := 5 * (height / 100)

def segCharWidth (height : ℚ) : ℚ := segFontSize height * (3/5)

def wordEstWidth (charWidth : ℚ) (w : Word) : ℚ := ((w.word.length : ℚ) + 1) * charWidth

/-- `workAreaWidthPercent`: from the safety margins if present, else 90. -/
def workAreaWidthPercent (safetyMargins : Option (ℚ × ℚ)) : ℚ :=
  match safetyMargins with
  | some (l, r) => 100 - l * 100 - r * 100
  | none => 90

/-- `captionBoxMaxWidth`: work-area width minus two horizontal paddings
(default `horizontal_percent` 3.5). -/
def captionBoxMaxWidth (width : ℚ) (safetyMargins : Option (ℚ × ℚ))
    (horizontalPaddingPercent : Option ℚ) : ℚ :=
  let workAreaWidth := width * (workAreaWidthPercent safetyMargins / 100)
  let hp := horizontalPaddingPercent.getD (7/2)
  let captionBoxPadding := workAreaWidth * (hp / 100) * 2
  workAreaWidth - captionBoxPadding

/-- The greedy packing loop (`for (const word of ...)` with
`currentSegment`/`estimatedWidth` accumulators, final flush). -/
def segmentGo (charWidth maxWidth : ℚ) :
    List Word → List Word → ℚ → List (List Word)
  | [], currentSegment, _ =>
    if currentSegment.isEmpty then [] else [currentSegment]
  | w :: ws, currentSegment, estimatedWidth =>
    let wordWidth := wordEstWidth charWidth w
    if estimatedWidth + wordWidth ≤ maxWidth then
      segmentGo charWidth maxWidth ws (currentSegment ++ [w]) (estimatedWidth + wordWidth)
    else if currentSegment.isEmpty then
      segmentGo charWidth maxWidth ws [w] wordWidth
    else
      currentSegment :: segmentGo charWidth maxWidth ws [w] wordWidth

/-- Segment construction for an event's word list. -/
def segmentWords (charWidth maxWidth : ℚ) (ws : List Word) : List (List Word) :=
  segmentGo charWidth maxWidth ws [] 0

lemma segmentGo_flatten (cw mw : ℚ) :
    ∀ (ws cur : List Word) (est : ℚ), (segmentGo cw mw ws cur est).flatten = cur ++ ws := by
  intro ws
  induction ws with
  | nil =>
    intro cur est
    by_cases hc : cur.isEmpty
    · simp [segmentGo, hc, List.isEmpty_iff.mp hc]
    · simp [segmentGo, hc]
  | cons w ws ih =>
    intro cur est
    simp only [segmentGo]
    by_cases h1 : est + wordEstWidth cw w ≤ mw
    · rw [if_pos h1, ih]
      simp
    · rw [if_neg h1]
      by_cases h2 : cur.isEmpty
      · rw [if_pos h2, ih]
        simp [List.isEmpty_iff.mp h2]
      · rw [if_neg h2]
        simp [ih]

lemma segmentGo_ne_nil (cw mw : ℚ) :
    ∀ (ws cur : List Word) (est : ℚ), ∀ s ∈ segmentGo cw mw ws cur est, s ≠ [] := by
  intro ws
  induction ws with
  | nil =>
    intro cur est s hs
    by_cases hc : cur.isEmpty
    · simp [segmentGo, hc] at hs
    · simp only [segmentGo, if_neg hc, List.mem_singleton] at hs
      subst hs
      exact fun h => hc (by simp [h])
  | cons w ws ih =>
    intro cur est s hs
    simp only [segmentGo] at hs
    by_cases h1 : est + wordEstWidth cw w ≤ mw
    · rw [if_pos h1] at hs
      exact ih _ _ s hs
    · rw [if_neg h1] at hs
      by_cases h2 : cur.isEmpty
      · rw [if_pos h2] at hs
        exact ih _ _ s hs
      · rw [if_neg h2] at hs
        rcases List.mem_cons.mp hs with rfl | hmem
        · exact fun h => h2 (by simp [h])
        · exact ih _ _ s hmem

/-- **C10.** Segmentation is a partition of the event's word sequence:
concatenating the segments in order gives back exactly
`active_speech_words` (no word dropped, duplicated, or reordered), and every
produced segment is non-empty — for any character width and width budget,
hence for every viewport size. -/
theorem segmentation_preserves_words :
    ∀ (cw mw : ℚ) (ws : List Word),
      (segmentWords cw mw ws).flatten = ws ∧
      ∀ s ∈ segmentWords cw mw ws, s ≠ [] := by
  intro cw mw ws
  constructor
  · rw [segmentWords, segmentGo_flatten]
    rfl
  · intro s hs
    exact segmentGo_ne_nil cw mw ws [] 0 s hs

/-- Witness for C10 on a concrete two-word list at viewport 100×10. -/
theorem segmentation_preserves_words_witness :
    (segmentWords (segCharWidth 100) (captionBoxMaxWidth 10 none none) [c5wA, c5wB]).flatten =
      [c5wA, c5wB] ∧ [c5wA] ≠ ([] : List Word) :=
  ⟨(segmentation_preserves_words (segCharWidth 100) (captionBoxMaxWidth 10 none none)
      [c5wA, c5wB]).1,
    (segmentation_preserves_words (segCharWidth 100) (captionBoxMaxWidth 10 none none)
      [c5wA, c5wB]).2 [c5wA]
      (by norm_num [segmentWords, segmentGo, segCharWidth, segFontSize,
        captionBoxMaxWidth, workAreaWidthPercent, wordEstWidth, c5wA, c5wB,
        String.length])⟩

/-- Accumulated estimated width of a segment. -/
def segWidth (charWidth : ℚ) (s : List Word) : ℚ :=
  (s.map (wordEstWidth charWidth)).sum

lemma segWidth_append_single (cw : ℚ) (s : List Word) (w : Word) :
    segWidth cw (s ++ [w]) = segWidth cw s + wordEstWidth cw w := by
  simp [segWidth]

lemma segmentGo_width_ok (cw mw : ℚ) :
    ∀ (ws cur : List Word) (est : ℚ),
      est = segWidth cw cur →
      (cur = [] ∨ segWidth cw cur ≤ mw ∨ ∃ w, cur = [w] ∧ mw < wordEstWidth cw w) →
      ∀ s ∈ segmentGo cw mw ws cur est,
        segWidth cw s ≤ mw ∨ ∃ w, s = [w] ∧ mw < wordEstWidth cw w := by
  intro ws
  induction ws with
  | nil =>
    intro cur est hest hok s hs
    by_cases hc : cur.isEmpty
    · simp [segmentGo, hc] at hs
    · simp only [segmentGo, if_neg hc, List.mem_singleton] at hs
      subst hs
      rcases hok with h | h
      · exact absurd h (by simpa [List.isEmpty_iff] using hc)
      · exact h
  | cons w ws ih =>
    intro cur est hest hok s hs
    simp only [segmentGo] at hs
    by_cases h1 : est + wordEstWidth cw w ≤ mw
    · rw [if_pos h1] at hs
      refine ih (cur ++ [w]) (est + wordEstWidth cw w)
        (by rw [hest, segWidth_append_single]) ?_ s hs
      right; left
      rw [segWidth_append_single, ← hest]
      exact h1
    · rw [if_neg h1] at hs
      have hsingle : segWidth cw [w] ≤ mw ∨ ∃ w', ([w] : List Word) = [w'] ∧
          mw < wordEstWidth cw w' := by
        by_cases hww : wordEstWidth cw w ≤ mw
        · left; simp [segWidth, hww]
        · right; exact ⟨w, rfl, not_le.mp hww⟩
      by_cases h2 : cur.isEmpty
      · rw [if_pos h2] at hs
        exact ih [w] (wordEstWidth cw w) (by simp [segWidth]) (Or.inr hsingle) s hs
      · rw [if_neg h2] at hs
        rcases List.mem_cons.mp hs with rfl | hmem
        · rcases hok with h | h
          · exact absurd h (by simpa [List.isEmpty_iff] using h2)
          · exact h
        · exact ih [w] (wordEstWidth cw w) (by simp [segWidth]) (Or.inr hsingle) s hmem

/-- **C8.** With `charWidth = fontSize * 0.6`, `fontSize = 5 * height/100`
(the baseline font-size percent used by segmentation) and the caption-box
budget derived from the work area and its horizontal padding, every greedily
produced segment either fits the budget, or is a single word whose estimated
width alone exceeds the budget (kept untruncated as its own segment). -/
theorem segment_width_spec :
    ∀ (height width : ℚ) (sm : Option (ℚ × ℚ)) (hp : Option ℚ) (ws : List Word),
      ∀ s ∈ segmentWords (segCharWidth height) (captionBoxMaxWidth width sm hp) ws,
        segWidth (segCharWidth height) s ≤ captionBoxMaxWidth width sm hp ∨
        ∃ w, s = [w] ∧
          captionBoxMaxWidth width sm hp < wordEstWidth (segCharWidth height) w := by
  intro height width sm hp ws s hs
  exact segmentGo_width_ok (segCharWidth height) (captionBoxMaxWidth width sm hp)
    ws [] 0 (by simp [segWidth]) (Or.inl rfl) s hs

/-- Witness for C8 at viewport 10×100, no layout settings: the 5-character
estimated width `15` exceeds the budget `8.37`, so the word still forms its
own singleton segment. -/
theorem segment_width_spec_witness :
    ([c5wA] ∈ segmentWords (segCharWidth 100) (captionBoxMaxWidth 10 none none)
      [c5wA, c5wB]) ∧
    (segWidth (segCharWidth 100) [c5wA] ≤ captionBoxMaxWidth 10 none none ∨
      ∃ w, ([c5wA] : List Word) = [w] ∧
        captionBoxMaxWidth 10 none none < wordEstWidth (segCharWidth 100) w) :=
  ⟨by norm_num [segmentWords, segmentGo, segCharWidth, segFontSize,
      captionBoxMaxWidth, workAreaWidthPercent, wordEstWidth, c5wA, c5wB,
      String.length],
    segment_width_spec 100 10 none none [c5wA, c5wB] [c5wA]
      (by norm_num [segmentWords, segmentGo, segCharWidth, segFontSize,
        captionBoxMaxWidth, workAreaWidthPercent, wordEstWidth, c5wA, c5wB,
        String.length])⟩

/-! ## Sticky segment index

From the `currentSegmentIndex` update of the component (the block reading
and writing `currentSegmentIndexRef`), for one fixed event and viewport
(fixed cache key). -/

/-- The `for (let i = 0; ...) { if (hasActiveWordInSegment) { found = i; break } }`
scan for the first segment containing an active word. -/
def findActiveSegment (T : ℚ) : List (List Word) → Option ℕ
  | [] => none
  | s :: rest =>
    if s.any (wordActiveAt T) then some 0
    else (findActiveSegment T rest).map (· + 1)

/-- One segment-index update at adjusted time `T`, given the event's full
word list, its cached segments, and the previously stored index
(`currentSegmentIndexRef.get(cacheKey) || 0`). -/
def stepSegmentIndex (words : List Word) (segments : List (List Word))
    (prev : ℕ) (T : ℚ) : ℕ :=
  if 0 < segments.length then
    if words.any (wordActiveAt T) then
      match findActiveSegment T segments with
      | some i => i
      | none =>
        if prev < segments.length then
          match (segments.getD prev []).getLast? with
          | some lw => if lw.endTime < T then min (prev + 1) (segments.length - 1) else prev
          | none => prev
        else 0
    else
      match segments.head? >>= List.head? with
      | some fw => if T < fw.start then 0 else prev
      | none => prev
  else prev

/-- The stored-index trace over a run of sample times (initial stored
index 0, i.e. an empty `currentSegmentIndexRef`). -/
def runSegmentIndices (words : List Word) (segments : List (List Word)) :
    ℕ → List ℚ → List ℕ
  | _, [] => []
  | prev, T :: Ts =>
    let i := stepSegmentIndex words segments prev T
    i :: runSegmentIndices words segments i Ts

/-- Two words in reverse temporal order (`word_index` ascending, as the data
model requires, but the later-indexed word spoken first). -/
def c9w0 : Word := { word := "aaaa", word_index := 0, start := 10, endTime := 11 }

def c9w1 : Word := { word := "bbbb", word_index := 1, start := 0, endTime := 1 }

def c9Event : SyncEvent :=
  { event_id := "ev9", speaker_id := "s1", segment_id := "g9", sentence := "aaaa bbbb",
    pre_reading := { text := "aaaa bbbb", start := 0, endTime := 20, style := "preview", alpha := "0.6" },
    active_speech_words := [c9w0, c9w1] }

def c9Doc : TimingSyncData :=
  { version := "1.0", total_duration := 20, sync_precision_ms := 10,
    sync_events := [c9Event] }

/-- Three words in temporal order, each wider than the budget, so each forms
its own segment. -/
def c9s0 : Word := { word := "cccc", word_index := 0, start := 0, endTime := 1 }

def c9s1 : Word := { word := "dddd", word_index := 1, start := 2, endTime := 3 }

def c9s2 : Word := { word := "eeee", word_index := 2, start := 4, endTime := 5 }

/-- **C9 (counterexample).** On a viewport of 10×100 every 4-letter word is
its own segment.  (a) For `c9Doc` — both sample times resolve to the same
event — the stored index goes `1` then `0`: it regresses while `t`
strictly increases, because after the early word ends the code resets to
segment 0 whenever `adjustedTime` precedes the first segment's first word.
(b) Even with temporally sorted words, a strictly increasing pair of sample
times moves the index from 0 directly to 2, not to
`min(currentIndex+1, lastIndex) = 1`. -/
theorem segment_index_can_regress_and_skip :
    (segmentWords (segCharWidth 100) (captionBoxMaxWidth 10 none none)
        [c9w0, c9w1] = [[c9w0], [c9w1]] ∧
      selectPrimary c9Doc (1/2) = some c9Event ∧
      selectPrimary c9Doc 2 = some c9Event ∧
      runSegmentIndices [c9w0, c9w1] [[c9w0], [c9w1]] 0 [1/2, 2] = [1, 0]) ∧
    (segmentWords (segCharWidth 100) (captionBoxMaxWidth 10 none none)
        [c9s0, c9s1, c9s2] = [[c9s0], [c9s1], [c9s2]] ∧
      runSegmentIndices [c9s0, c9s1, c9s2] [[c9s0], [c9s1], [c9s2]] 0 [1/2, 9/2] = [0, 2] ∧
      (2 : ℕ) ≠ min (0 + 1) (3 - 1)) := by
  refine ⟨⟨?_, ?_, ?_, ?_⟩, ⟨?_, ?_, by decide⟩⟩
  · norm_num [segmentWords, segmentGo, segCharWidth, segFontSize, captionBoxMaxWidth,
      workAreaWidthPercent, wordEstWidth, c9w0, c9w1, String.length]
  · norm_num [selectPrimary, selectLoop, preReadingCandidates, List.filter, List.find?,
      wordActiveAt, preReadingContains, c9Doc, c9Event, c9w0, c9w1]
  · norm_num [selectPrimary, selectLoop, preReadingCandidates, List.filter, List.find?,
      wordActiveAt, preReadingContains, c9Doc, c9Event, c9w0, c9w1]
  · norm_num [runSegmentIndices, stepSegmentIndex, findActiveSegment, wordActiveAt,
      c9w0, c9w1]
  · norm_num [segmentWords, segmentGo, segCharWidth, segFontSize, captionBoxMaxWidth,
      workAreaWidthPercent, wordEstWidth, c9s0, c9s1, c9s2, String.length]
  · norm_num [runSegmentIndices, stepSegmentIndex, findActiveSegment, wordActiveAt,
      c9s0, c9s1, c9s2]

lemma wordActiveAt_eq_true_iff {T : ℚ} {w : Word} :
    wordActiveAt T w = true ↔ w.start ≤ T ∧ T ≤ w.endTime := by
  simp [wordActiveAt]

lemma findActiveSegment_isSome (T : ℚ) :
    ∀ (segs : List (List Word)) (s : List Word), s ∈ segs →
      s.any (wordActiveAt T) = true → ∃ i, findActiveSegment T segs = some i := by
  intro segs
  induction segs with
  | nil => intro s hs; cases hs
  | cons s0 rest ih =>
    intro s hs hact
    by_cases h0 : s0.any (wordActiveAt T) = true
    · exact ⟨0, by simp [findActiveSegment, h0]⟩
    · rcases List.mem_cons.mp hs with rfl | hmem
      · exact absurd hact h0
      · obtain ⟨i, hi⟩ := ih s hmem hact
        exact ⟨i + 1, by simp [findActiveSegment, h0, hi]⟩

lemma findActiveSegment_some_spec (T : ℚ) :
    ∀ (segs : List (List Word)) (i : ℕ), findActiveSegment T segs = some i →
      ∃ s, segs[i]? = some s ∧ s.any (wordActiveAt T) = true ∧
        ∀ j < i, ∀ s', segs[j]? = some s' → s'.any (wordActiveAt T) = false := by
  intro segs
  induction segs with
  | nil => intro i h; cases h
  | cons s0 rest ih =>
    intro i h
    by_cases h0 : s0.any (wordActiveAt T) = true
    · simp only [findActiveSegment, if_pos h0] at h
      cases h
      exact ⟨s0, by simp, h0, fun j hj => absurd hj (Nat.not_lt_zero j)⟩
    · simp only [findActiveSegment, if_neg h0] at h
      cases hr : findActiveSegment T rest with
      | none => rw [hr] at h; cases h
      | some k =>
        rw [hr] at h
        simp only [Option.map_some', Option.some.injEq] at h
        subst h
        obtain ⟨s, hget, hact, hbefore⟩ := ih k hr
        refine ⟨s, by rw [List.getElem?_cons_succ]; exact hget, hact, ?_⟩
        intro j hj s' hs'
        cases j with
        | zero =>
          rw [List.getElem?_cons_zero] at hs'
          cases hs'
          simp only [Bool.not_eq_true] at h0
          exact h0
        | succ j' =>
          rw [List.getElem?_cons_succ] at hs'
          exact hbefore j' (Nat.lt_of_succ_lt_succ hj) s' hs'

lemma cross_segment_start_le {words : List Word} {segs : List (List Word)}
    (hjoin : segs.flatten = words)
    (hsort : List.Pairwise (fun a b => a.start ≤ b.start) words) :
    ∀ (i j : ℕ) (si sj : List Word), i < j → segs[i]? = some si → segs[j]? = some sj →
      ∀ x ∈ si, ∀ y ∈ sj, x.start ≤ y.start := by
  rw [← hjoin] at hsort
  have hcross := (List.pairwise_flatten.mp hsort).2
  rw [List.pairwise_iff_getElem] at hcross
  intro i j si sj hij hi hj x hx y hy
  obtain ⟨hilen, hival⟩ := List.getElem?_eq_some.mp hi
  obtain ⟨hjlen, hjval⟩ := List.getElem?_eq_some.mp hj
  have := hcross i j hilen hjlen hij
  rw [hival, hjval] at this
  exact this x hx y hy

lemma flatten_head_eq {segs : List (List Word)}
    (hne : ∀ s ∈ segs, s ≠ []) :
    (segs.head? >>= List.head?) = segs.flatten.head? := by
  cases segs with
  | nil => rfl
  | cons s rest =>
    cases hs : s with
    | nil => exact absurd hs (hne s (List.mem_cons_self _ _))
    | cons a s' => simp

lemma head_start_le {words : List Word} {fw : Word}
    (hsort : List.Pairwise (fun a b => a.start ≤ b.start) words)
    (hw : words.head? = some fw) :
    ∀ w ∈ words, fw.start ≤ w.start := by
  cases words with
  | nil => cases hw
  | cons a rest =>
    rw [List.head?_cons] at hw
    cases hw
    intro w hw
    rcases List.mem_cons.mp hw with rfl | hmem
    · exact le_refl _
    · exact (List.pairwise_cons.mp hsort).1 w hmem

lemma findActiveSegment_of_any {words : List Word} {segs : List (List Word)}
    (hjoin : segs.flatten = words) (T : ℚ)
    (hact : words.any (wordActiveAt T) = true) :
    ∃ i, findActiveSegment T segs = some i := by
  obtain ⟨w, hw, hwact⟩ := List.any_eq_true.mp hact
  rw [← hjoin] at hw
  obtain ⟨s, hs, hws⟩ := List.mem_flatten.mp hw
  exact findActiveSegment_isSome T segs s hs (List.any_eq_true.mpr ⟨w, hws, hwact⟩)

lemma stepSegmentIndex_mono {words : List Word} {segs : List (List Word)}
    (hjoin : segs.flatten = words)
    (hne : ∀ s ∈ segs, s ≠ [])
    (hsort : List.Pairwise (fun a b => a.start ≤ b.start) words) :
    ∀ (prev : ℕ) (T : ℚ),
      (prev = 0 ∨ ∃ T', T' < T ∧ findActiveSegment T' segs = some prev) →
      prev ≤ stepSegmentIndex words segs prev T ∧
      (stepSegmentIndex words segs prev T = 0 ∨
        ∃ T'', T'' ≤ T ∧
          findActiveSegment T'' segs = some (stepSegmentIndex words segs prev T)) := by
  intro prev T hinv
  by_cases hlen : 0 < segs.length
  · by_cases hact : words.any (wordActiveAt T) = true
    · obtain ⟨i, hfa⟩ := findActiveSegment_of_any hjoin T hact
      have hstep : stepSegmentIndex words segs prev T = i := by
        simp [stepSegmentIndex, hlen, hact, hfa]
      rw [hstep]
      constructor
      · rcases hinv with rfl | ⟨T', hT'T, hprev⟩
        · exact Nat.zero_le i
        · by_contra hcon
          push_neg at hcon
          obtain ⟨si, hgi, hai, -⟩ := findActiveSegment_some_spec T segs i hfa
          obtain ⟨sp, hgp, hap, hbp⟩ := findActiveSegment_some_spec T' segs prev hprev
          obtain ⟨v, hvmem, hvact⟩ := List.any_eq_true.mp hai
          have hvT := wordActiveAt_eq_true_iff.mp hvact
          have hnotT' : si.any (wordActiveAt T') = false := hbp i hcon si hgi
          have hvnot : ¬(v.start ≤ T' ∧ T' ≤ v.endTime) := fun hc =>
            (List.any_eq_false.mp hnotT' v hvmem) (wordActiveAt_eq_true_iff.mpr hc)
          obtain ⟨u, humem, huact⟩ := List.any_eq_true.mp hap
          have huT := wordActiveAt_eq_true_iff.mp huact
          have hvu : v.start ≤ u.start :=
            cross_segment_start_le hjoin hsort i prev si sp hcon hgi hgp v hvmem u humem
          rcases not_and_or.mp hvnot with h1 | h2
          · have : T' < v.start := not_le.mp h1
            linarith [huT.1]
          · have : v.endTime < T' := not_le.mp h2
            linarith [hvT.2]
      · exact Or.inr ⟨T, le_refl T, hfa⟩
    · cases hfw : segs.head? >>= List.head? with
      | none =>
        have hstep : stepSegmentIndex words segs prev T = prev := by
          simp only [Bool.not_eq_true] at hact
          simp [stepSegmentIndex, hlen, hact, hfw]
        rw [hstep]
        refine ⟨le_refl _, ?_⟩
        rcases hinv with rfl | ⟨T', h1, h2⟩
        · exact Or.inl rfl
        · exact Or.inr ⟨T', le_of_lt h1, h2⟩
      | some fw =>
        by_cases hT : T < fw.start
        · have hstep : stepSegmentIndex words segs prev T = 0 := by
            simp only [Bool.not_eq_true] at hact
            simp [stepSegmentIndex, hlen, hact, hfw, hT]
          rw [hstep]
          have hprev0 : prev = 0 := by
            rcases hinv with rfl | ⟨T', hT'T, hprev⟩
            · rfl
            · exfalso
              obtain ⟨sp, hgp, hap, -⟩ := findActiveSegment_some_spec T' segs prev hprev
              obtain ⟨u, humem, huact⟩ := List.any_eq_true.mp hap
              have huT := wordActiveAt_eq_true_iff.mp huact
              have hwhead : words.head? = some fw := by
                rw [← hjoin, ← flatten_head_eq hne, hfw]
              have humem' : u ∈ words := by
                rw [← hjoin]
                exact List.mem_flatten.mpr ⟨sp, List.getElem?_mem hgp, humem⟩
              have := head_start_le hsort hwhead u humem'
              linarith [huT.1]
          rw [hprev0]
          exact ⟨le_refl 0, Or.inl rfl⟩
        · have hstep : stepSegmentIndex words segs prev T = prev := by
            simp only [Bool.not_eq_true] at hact
            simp [stepSegmentIndex, hlen, hact, hfw, hT]
          rw [hstep]
          refine ⟨le_refl _, ?_⟩
          rcases hinv with rfl | ⟨T', h1, h2⟩
          · exact Or.inl rfl
          · exact Or.inr ⟨T', le_of_lt h1, h2⟩
  · have hstep : stepSegmentIndex words segs prev T = prev := by
      simp [stepSegmentIndex, hlen]
    rw [hstep]
    refine ⟨le_refl _, ?_⟩
    rcases hinv with rfl | ⟨T', h1, h2⟩
    · exact Or.inl rfl
    · exact Or.inr ⟨T', le_of_lt h1, h2⟩

lemma stepSegmentIndex_advance {words : List Word} {segs : List (List Word)}
    (hjoin : segs.flatten = words)
    (hsort : List.Pairwise (fun a b => a.start ≤ b.start) words) :
    ∀ (prev : ℕ) (T : ℚ), prev < stepSegmentIndex words segs prev T →
      (∀ w ∈ segs.getD prev [], w.endTime < T) ∧
      findActiveSegment T segs = some (stepSegmentIndex words segs prev T) := by
  intro prev T hadv
  by_cases hlen : 0 < segs.length
  · by_cases hact : words.any (wordActiveAt T) = true
    · obtain ⟨i, hfa⟩ := findActiveSegment_of_any hjoin T hact
      have hstep : stepSegmentIndex words segs prev T = i := by
        simp [stepSegmentIndex, hlen, hact, hfa]
      rw [hstep] at hadv ⊢
      refine ⟨?_, hfa⟩
      obtain ⟨si, hgi, hai, hbi⟩ := findActiveSegment_some_spec T segs i hfa
      have hilen : i < segs.length := (List.getElem?_eq_some.mp hgi).1
      have hplen : prev < segs.length := lt_trans hadv hilen
      have hgp : segs[prev]? = some segs[prev] := List.getElem?_eq_getElem hplen
      have hgetD : segs.getD prev [] = segs[prev] := by
        rw [List.getD_eq_getElem?_getD, hgp]
        rfl
      rw [hgetD]
      intro w hw
      have hnoact : segs[prev].any (wordActiveAt T) = false := hbi prev hadv _ hgp
      have hwnot : ¬(w.start ≤ T ∧ T ≤ w.endTime) := fun hc =>
        (List.any_eq_false.mp hnoact w hw) (wordActiveAt_eq_true_iff.mpr hc)
      obtain ⟨v, hvmem, hvact⟩ := List.any_eq_true.mp hai
      have hvT := wordActiveAt_eq_true_iff.mp hvact
      have hwv : w.start ≤ v.start :=
        cross_segment_start_le hjoin hsort prev i _ si hadv hgp hgi w hw v hvmem
      rcases not_and_or.mp hwnot with h1 | h2
      · exact absurd (le_trans hwv hvT.1) h1
      · exact not_le.mp h2
    · exfalso
      cases hfw : segs.head? >>= List.head? with
      | none =>
        have hstep : stepSegmentIndex words segs prev T = prev := by
          simp only [Bool.not_eq_true] at hact
          simp [stepSegmentIndex, hlen, hact, hfw]
        rw [hstep] at hadv
        exact lt_irrefl prev hadv
      | some fw =>
        by_cases hT : T < fw.start
        · have hstep : stepSegmentIndex words segs prev T = 0 := by
            simp only [Bool.not_eq_true] at hact
            simp [stepSegmentIndex, hlen, hact, hfw, hT]
          rw [hstep] at hadv
          exact Nat.not_lt_zero prev hadv
        · have hstep : stepSegmentIndex words segs prev T = prev := by
            simp only [Bool.not_eq_true] at hact
            simp [stepSegmentIndex, hlen, hact, hfw, hT]
          rw [hstep] at hadv
          exact lt_irrefl prev hadv
  · have hstep : stepSegmentIndex words segs prev T = prev := by
      simp [stepSegmentIndex, hlen]
    rw [hstep] at hadv
    exact absurd hadv (lt_irrefl prev)

lemma runSegmentIndices_chain {words : List Word} {segs : List (List Word)}
    (hjoin : segs.flatten = words)
    (hne : ∀ s ∈ segs, s ≠ [])
    (hsort : List.Pairwise (fun a b => a.start ≤ b.start) words) :
    ∀ (Ts : List ℚ) (prev : ℕ),
      List.Pairwise (· < ·) Ts →
      (prev = 0 ∨ ∃ T', (∀ T ∈ Ts, T' < T) ∧ findActiveSegment T' segs = some prev) →
      List.Chain' (· ≤ ·) (prev :: runSegmentIndices words segs prev Ts) := by
  intro Ts
  induction Ts with
  | nil =>
    intro prev _ _
    simp [runSegmentIndices]
  | cons T Ts ih =>
    intro prev hpw hinv
    obtain ⟨hthead, htail⟩ := List.pairwise_cons.mp hpw
    have hinvT : prev = 0 ∨ ∃ T', T' < T ∧ findActiveSegment T' segs = some prev := by
      rcases hinv with rfl | ⟨T', hall, hfa⟩
      · exact Or.inl rfl
      · exact Or.inr ⟨T', hall T (List.mem_cons_self _ _), hfa⟩
    obtain ⟨hle, hpost⟩ := stepSegmentIndex_mono hjoin hne hsort prev T hinvT
    have hrun : runSegmentIndices words segs prev (T :: Ts) =
        stepSegmentIndex words segs prev T ::
          runSegmentIndices words segs (stepSegmentIndex words segs prev T) Ts := rfl
    rw [hrun]
    rw [List.chain'_cons]
    refine ⟨hle, ?_⟩
    refine ih (stepSegmentIndex words segs prev T) htail ?_
    rcases hpost with h0 | ⟨T'', hT''T, hfa⟩
    · exact Or.inl h0
    · exact Or.inr ⟨T'', fun S hS => lt_of_le_of_lt hT''T (hthead S hS), hfa⟩

/-- **C9 (amended).** Fix a viewport and an event whose word list is ordered
by nondecreasing start time (the spec's data-model expectation).  Over any
strictly increasing sequence of sample times the stored segment index is
monotone non-decreasing; and whenever one update advances the index past the
current segment, every word of the current segment has already ended (in
particular its last word) and none is still active, the new index being the
lowest-indexed segment that contains an active word — which may be more than
one step ahead, so the `min(currentIndex+1, lastIndex)` move of the claim
(an unreachable fallback branch, since segments exactly cover the word list)
does not describe the advancement. -/
theorem segment_index_monotone :
    ∀ (height width : ℚ) (sm : Option (ℚ × ℚ)) (hp : Option ℚ)
      (words : List Word) (times : List ℚ),
      List.Pairwise (fun a b => a.start ≤ b.start) words →
      List.Pairwise (· < ·) times →
      List.Chain' (· ≤ ·)
        (runSegmentIndices words
          (segmentWords (segCharWidth height) (captionBoxMaxWidth width sm hp) words)
          0 times) ∧
      (∀ (prev : ℕ) (T : ℚ),
        prev < stepSegmentIndex words
          (segmentWords (segCharWidth height) (captionBoxMaxWidth width sm hp) words)
          prev T →
        (∀ w ∈ (segmentWords (segCharWidth height)
            (captionBoxMaxWidth width sm hp) words).getD prev [],
          w.endTime < T) ∧
        findActiveSegment T
            (segmentWords (segCharWidth height) (captionBoxMaxWidth width sm hp) words) =
          some (stepSegmentIndex words
            (segmentWords (segCharWidth height) (captionBoxMaxWidth width sm hp) words)
            prev T)) := by
  intro height width sm hp words times hsort htimes
  have hjoin : (segmentWords (segCharWidth height)
      (captionBoxMaxWidth width sm hp) words).flatten = words := by
    rw [segmentWords, segmentGo_flatten]
    rfl
  have hne : ∀ s ∈ segmentWords (segCharWidth height)
      (captionBoxMaxWidth width sm hp) words, s ≠ [] :=
    fun s hs => segmentGo_ne_nil _ _ words [] 0 s hs
  constructor
  · have := runSegmentIndices_chain hjoin hne hsort times 0 htimes (Or.inl rfl)
    exact this.tail
  · exact stepSegmentIndex_advance hjoin hsort

/-- Witness for the amended C9: the temporally sorted three-word document at
viewport 10×100 over the strictly increasing samples `[0.5, 4.5]` (trace
`[0, 2]`, nondecreasing). -/
theorem segment_index_monotone_witness :
    List.Pairwise (fun a b : Word => a.start ≤ b.start) [c9s0, c9s1, c9s2] ∧
    List.Pairwise (· < ·) [(1/2 : ℚ), 9/2] ∧
    List.Chain' (· ≤ ·)
      (runSegmentIndices [c9s0, c9s1, c9s2]
        (segmentWords (segCharWidth 100) (captionBoxMaxWidth 10 none none)
          [c9s0, c9s1, c9s2])
        0 [1/2, 9/2]) :=
  ⟨by norm_num [c9s0, c9s1, c9s2], by norm_num,
    (segment_index_monotone 100 10 none none [c9s0, c9s1, c9s2] [1/2, 9/2]
      (by norm_num [c9s0, c9s1, c9s2]) (by norm_num)).1⟩

end EcgPlayer
